import Mathlib

/-!
Verification of the blocking mutex of `examples/mutex.rs` (spin lock +
intrusive wait list + park/unpark), against its natural-language spec.

The concurrent code is shallowly embedded as a small-step interleaving
semantics: each thread has a program counter ranging over the control
points of `Mutex::lock`, the critical section of the demonstration
workload (`*mtx.lock() += 1`), and `MutexGuard::drop`; the global state
carries the spin-lock flag, the `locked` cell, the wait list (as the
sequence of thread handles stored in the linked wait entries, in
traversal order from the sentinel), the protected counter, and a log of
issued unparks.  `std::thread::park` may return spuriously, so a parked
thread may resume at any time: the resume step is unconditionally
enabled, which over-approximates every real wake-up pattern.

The intrusive doubly linked list (`examples/linked_list.rs`) is not part
of the sources provided, so its operations are modelled from the spec as
pointer maps over node names; see the `DList` section.
-/

/-- Program counters of one worker thread, one per control point of
`Mutex::lock` (mutex.rs lines 71-88), the demonstration increment
(line 157, split into its read and its write), and `MutexGuard::drop`
(lines 98-109). -/
inductive PC where
  /-- between iterations of the workload loop, about to call `lock()` -/
  | idle : PC
  /-- line 72: spinning in `SpinLock::acquire` at `lock()` entry -/
  | lockAcq : PC
  /-- line 73: holds the spin lock; tests `self.locked.get()` -/
  | lockTest : PC
  /-- lines 74-78: holds the spin lock; creates and links the wait entry -/
  | insertEntry : PC
  /-- line 79: holds the spin lock; tests the `while self.locked.get()` condition -/
  | waitCheck : PC
  /-- lines 80-81: dropped the spin-lock guard and parked -/
  | parked : PC
  /-- line 82: resumed from `park()`; spinning in `SpinLock::acquire` -/
  | waitReacq : PC
  /-- line 84: holds the spin lock; `drop(wait_entry)` unlinks the entry -/
  | unlinkEntry : PC
  /-- line 86: holds the spin lock; `self.locked.set(true)` -/
  | setFlag : PC
  /-- lines 87-88: holds the spin lock; builds the `MutexGuard`, then the
  spin-lock guard drops and `lock()` returns -/
  | retGuard : PC
  /-- line 157, read half: holds the mutex guard; reads the counter -/
  | csRead : PC
  /-- line 157, write half: holds the mutex guard; writes back `r + 1` -/
  | csWrite (r : Nat) : PC
  /-- line 101: in `MutexGuard::drop`, spinning in `SpinLock::acquire` -/
  | relAcq : PC
  /-- line 102: holds the spin lock; `self.mtx.locked.set(false)` -/
  | relSet : PC
  /-- lines 103-106: holds the spin lock; peeks the wait-list head and
  unparks the thread stored there, if any -/
  | relNotify : PC
  /-- line 107: `drop(sguard)` releases the spin lock, the iteration ends -/
  | relDone : PC
  /-- finished all its increments -/
  | done : PC
deriving DecidableEq, Repr

/-- Global state of one `Mutex<usize>` instance shared by `n` worker
threads (mutex.rs lines 51-57 plus the per-thread control state). -/
structure MState (n : Nat) where
  /-- the `AtomicBool` inside `spin_lock` (line 19) -/
  sl : Bool
  /-- the `locked: Cell<bool>` field (line 55) -/
  locked : Bool
  /-- the wait list: thread handles stored in the linked `WaitEntry`s, in
  traversal order from the sentinel (head first) -/
  waitList : List (Fin n)
  /-- the protected counter, `data: UnsafeCell<usize>` (line 56) -/
  data : Nat
  /-- ghost log of the unpark calls issued at line 105, in order -/
  unparkLog : List (Fin n)
  /-- each thread's program counter -/
  pc : Fin n → PC
  /-- each thread's remaining number of increments in the workload -/
  budget : Fin n → Nat

/-- One atomic step of thread `t`, translated control point by control
point from mutex.rs.  Spinning (a failed compare-exchange) and a
finished thread leave the state unchanged, so the function is total; the
step out of `parked` is unconditionally enabled, modelling both a
matching `unpark` and a spurious wake-up. -/
def tstep {n : Nat} (t : Fin n) (s : MState n) : MState n :=
  match s.pc t with
  | .idle =>
      if s.budget t = 0 then { s with pc := Function.update s.pc t .done }
      else { s with pc := Function.update s.pc t .lockAcq }
  | .lockAcq =>
      if s.sl then s
      else { s with sl := true, pc := Function.update s.pc t .lockTest }
  | .lockTest =>
      if s.locked then { s with pc := Function.update s.pc t .insertEntry }
      else { s with pc := Function.update s.pc t .setFlag }
  | .insertEntry =>
      { s with waitList := s.waitList ++ [t],
               pc := Function.update s.pc t .waitCheck }
  | .waitCheck =>
      if s.locked then
        { s with sl := false, pc := Function.update s.pc t .parked }
      else { s with pc := Function.update s.pc t .unlinkEntry }
  | .parked => { s with pc := Function.update s.pc t .waitReacq }
  | .waitReacq =>
      if s.sl then s
      else { s with sl := true, pc := Function.update s.pc t .waitCheck }
  | .unlinkEntry =>
      { s with waitList := s.waitList.erase t,
               pc := Function.update s.pc t .setFlag }
  | .setFlag =>
      { s with locked := true, pc := Function.update s.pc t .retGuard }
  | .retGuard =>
      { s with sl := false, pc := Function.update s.pc t .csRead }
  | .csRead =>
      { s with pc := Function.update s.pc t (.csWrite s.data) }
  | .csWrite r =>
      { s with data := r + 1,
               budget := Function.update s.budget t (s.budget t - 1),
               pc := Function.update s.pc t .relAcq }
  | .relAcq =>
      if s.sl then s
      else { s with sl := true, pc := Function.update s.pc t .relSet }
  | .relSet =>
      { s with locked := false, pc := Function.update s.pc t .relNotify }
  | .relNotify =>
      match s.waitList.head? with
      | none => { s with pc := Function.update s.pc t .relDone }
      | some u =>
          { s with unparkLog := s.unparkLog ++ [u],
                   pc := Function.update s.pc t .relDone }
  | .relDone =>
      { s with sl := false, pc := Function.update s.pc t .idle }
  | .done => s

/-- Initial state of the demonstration (`main`, lines 145-150): a fresh
mutex around `0`, every thread about to start, each with `m` increments
to perform. -/
def initState (n m : Nat) : MState n :=
  { sl := false, locked := false, waitList := [], data := 0,
    unparkLog := [], pc := fun _ => .idle, budget := fun _ => m }

/-- Reachability under arbitrary interleaving of thread steps. -/
inductive Reach {n : Nat} (s0 : MState n) : MState n → Prop where
  | refl : Reach s0 s0
  | step (t : Fin n) (s : MState n) : Reach s0 s → Reach s0 (tstep t s)

/-- Control points at which the thread holds the mutex's spin lock (a
`SpinLockGuard` for `self.spin_lock` is live). -/
def slHolder : PC → Bool
  | .lockTest | .insertEntry | .waitCheck | .unlinkEntry | .setFlag
  | .retGuard | .relSet | .relNotify | .relDone => true
  | _ => false

/-- Control points at which the thread holds the mutex: from line 86/87
(the `locked` flag set and the `MutexGuard` built) up to line 102 (its
`Drop` clears the flag). -/
def guardHolder : PC → Bool
  | .retGuard | .csRead | .csWrite _ | .relAcq | .relSet => true
  | _ => false

/-- Control points at which the thread's `WaitEntry` is linked into the
wait list (from line 74's insertion to line 84's unlink). -/
def waitLinked : PC → Bool
  | .waitCheck | .parked | .waitReacq | .unlinkEntry => true
  | _ => false

/-- Control points strictly between picking up an iteration at `idle`
and the budget decrement at the counter write: the thread still owes the
increment it is working on. -/
def midIncrement : PC → Bool
  | .lockAcq | .lockTest | .insertEntry | .waitCheck | .parked
  | .waitReacq | .unlinkEntry | .setFlag | .retGuard | .csRead
  | .csWrite _ => true
  | _ => false

/-- The global protocol invariant, preserved by every step.  `c` is the
conserved quantity `data + remaining budgets` (the total number of
increments the demonstration performs). -/
structure MInv {n : Nat} (c : Nat) (s : MState n) : Prop where
  slOwner : ∀ t, slHolder (s.pc t) = true → s.sl = true
  slUniq : ∀ t u, slHolder (s.pc t) = true → slHolder (s.pc u) = true → t = u
  guardLocked : ∀ t, guardHolder (s.pc t) = true → s.locked = true
  guardUniq : ∀ t u, guardHolder (s.pc t) = true → guardHolder (s.pc u) = true → t = u
  lockedGuard : s.locked = true → ∃ t, guardHolder (s.pc t) = true
  setFlagFree : ∀ t, s.pc t = PC.setFlag → s.locked = false
  unlinkFree : ∀ t, s.pc t = PC.unlinkEntry → s.locked = false
  waitMem : ∀ t, t ∈ s.waitList ↔ waitLinked (s.pc t) = true
  waitNodup : s.waitList.Nodup
  csData : ∀ t r, s.pc t = PC.csWrite r → s.data = r
  budgetPos : ∀ t, midIncrement (s.pc t) = true → 1 ≤ s.budget t
  doneBudget : ∀ t, s.pc t = PC.done → s.budget t = 0
  totalSum : s.data + Finset.univ.sum s.budget = c

/-- Control points inside the `while self.locked.get()` wait loop of
`lock()` (mutex.rs lines 79-83). -/
def inWaitLoop : PC → Bool
  | .waitCheck | .parked | .waitReacq => true
  | _ => false

/-- A finite schedule: run the listed threads' steps in order. -/
def runTrace {n : Nat} (s0 : MState n) (ts : List (Fin n)) : MState n :=
  ts.foldl (fun s t => tstep t s) s0

/-- The memory orderings of `core::sync::atomic::Ordering`, as named in
mutex.rs. -/
inductive MemOrdering where
  | relaxed : MemOrdering
  | acquire : MemOrdering
  | release : MemOrdering
  | acqrel : MemOrdering
  | seqcst : MemOrdering
deriving DecidableEq, Repr

/-- Success ordering of the compare-exchange in `SpinLock::acquire`
(mutex.rs line 27). -/
def casSuccessOrdering : MemOrdering := .acquire

/-- Failure ordering of the compare-exchange in `SpinLock::acquire`
(mutex.rs line 27). -/
def casFailureOrdering : MemOrdering := .relaxed

/-- Ordering of the store in `SpinLockGuard::drop` (mutex.rs line 46). -/
def unlockStoreOrdering : MemOrdering := .release

/-- Modelled from the spec: the intrusive circular doubly linked list of
`examples/linked_list.rs` (`ListHead`), which is not among the provided
sources.  Nodes are named by natural numbers; a list state is the pair
of neighbor maps (`next`, `prev`). -/
@[ext]
structure DList where
  next : Nat → Nat
  prev : Nat → Nat

/-- Modelled from the spec: `new_empty_sentinel()` — a self-linked
sentinel (here every node starts self-linked, i.e. unlinked). -/
def DList.newEmptySentinel : DList :=
  { next := fun x => x, prev := fun x => x }

/-- Modelled from the spec: `insert_before_sentinel(node)` (the
`ListHead::insert_prev` used by `WaitEntry::insert_new`, mutex.rs line
140) — splice `node` immediately before `sent`, updating the four
neighbor references. -/
def DList.insertPrev (s : DList) (sent node : Nat) : DList where
  next := fun x => if x = s.prev sent then node else if x = node then sent else s.next x
  prev := fun x => if x = sent then node else if x = node then s.prev sent else s.prev x

/-- Modelled from the spec: `unlink(node)` — re-link the node's two
neighbors to each other, then self-link the removed node (defensive,
makes double-unlink a no-op). -/
def DList.unlink (s : DList) (node : Nat) : DList where
  next := fun x => if x = node then node else if x = s.prev node then s.next node else s.next x
  prev := fun x => if x = node then node else if x = s.next node then s.prev node else s.prev x

/-- Modelled from the spec: `peek_head(sentinel)` (the
`ListHead::next()` used by `MutexGuard::drop`, mutex.rs line 103) — the
node right after the sentinel, or none when the list is empty. -/
def DList.peekHead (s : DList) (sent : Nat) : Option Nat :=
  if s.next sent = sent then none else some (s.next sent)

/-- `chain s a l b`: starting from `a`, the `next` pointers run exactly
through the nodes of `l` in order and then reach `b`, with the matching
`prev` pointers; `chain s sent l sent` says the circular list at
sentinel `sent` holds exactly `l` in traversal order. -/
def chain (s : DList) : Nat → List Nat → Nat → Prop
  | a, [], b => s.next a = b ∧ s.prev b = a
  | a, x :: xs, b => s.next a = x ∧ s.prev x = a ∧ chain s x xs b

/-- The error type of finishing the wait-entry construction in `lock()`
(mutex.rs lines 75-78): the `Err` branch is discharged by the empty
match `match e {}`, so the type has no constructors. -/
inductive InsertNewError : Type where

/-- `WaitEntry` (mutex.rs lines 127-133): an intrusive list node plus a
handle of the owning thread (thread handles are modelled as naturals). -/
structure WaitEntry where
  node : Nat
  thread : Nat

/-- `WaitEntry::insert_new` (mutex.rs lines 135-143) as the value
produced by `stack_init!` at lines 74-78: an entry carrying the current
thread's handle whose node is spliced in before the sentinel, and the
updated list; the `Result` is always `ok`. -/
def WaitEntry.insertNew (cur : Nat) (node : Nat) (dl : DList) (sent : Nat) :
    Except InsertNewError (WaitEntry × DList) :=
  Except.ok ({ node := node, thread := cur }, dl.insertPrev sent node)

/-- `main`'s thread count (mutex.rs line 148). -/
def threadCount : Nat := 20

/-- `main`'s per-loop workload (mutex.rs line 149). -/
def workload : Nat := 1000000

/-- Each worker performs `workload` increments twice (lines 156-163). -/
def perThread : Nat := workload * 2

/-- The final assertion of `main` (line 173):
`assert_eq!(*mtx.lock(), workload * thread_count * 2)`. -/
def mainAssertion (v : Nat) : Prop := v = workload * threadCount * 2

theorem minv_initState (n m : Nat) : MInv (n * m) (initState n m) := by
  refine ⟨?_, ?_, ?_, ?_, ?_, ?_, ?_, ?_, ?_, ?_, ?_, ?_, ?_⟩ <;>
    simp [initState, slHolder, guardHolder, waitLinked, midIncrement,
      Finset.sum_const, Finset.card_univ, mul_comm]

/-- Preservation helper: a step that only moves thread `t`'s program
counter (and possibly the ghost unpark log), leaving `sl`, `locked`, the
wait list, the data and the budgets unchanged. -/
theorem minv_pcMove {n : Nat} {c : Nat} {s : MState n} (h : MInv c s) (t : Fin n) {a : PC} (b : PC)
    (hpc : s.pc t = a)
    (hsl : slHolder b = slHolder a) (hg : guardHolder b = guardHolder a)
    (hw : waitLinked b = waitLinked a)
    (hm : midIncrement b = true → 1 ≤ s.budget t)
    (hsf : b = PC.setFlag → s.locked = false)
    (hue : b = PC.unlinkEntry → s.locked = false)
    (hcs : ∀ r, b = PC.csWrite r → s.data = r)
    (hdn : b = PC.done → s.budget t = 0)
    (L : List (Fin n)) :
    MInv c { s with pc := Function.update s.pc t b, unparkLog := L } := by
  refine ⟨?_, ?_, ?_, ?_, ?_, ?_, ?_, ?_, ?_, ?_, ?_, ?_, ?_⟩
  all_goals dsimp only
  · intro u hu
    rcases eq_or_ne u t with rfl | hne
    · rw [Function.update_same] at hu
      exact h.slOwner u (by rw [hpc, ← hsl]; exact hu)
    · rw [Function.update_noteq hne] at hu
      exact h.slOwner u hu
  · intro u v hu hv
    rcases eq_or_ne u t with hut | hnu
    · rcases eq_or_ne v t with hvt | hnv
      · rw [hut, hvt]
      · rw [hut, Function.update_same] at hu
        rw [Function.update_noteq hnv] at hv
        rw [hut]
        exact h.slUniq t v (by rw [hpc, ← hsl]; exact hu) hv
    · rw [Function.update_noteq hnu] at hu
      rcases eq_or_ne v t with hvt | hnv
      · rw [hvt, Function.update_same] at hv
        rw [hvt]
        exact h.slUniq u t hu (by rw [hpc, ← hsl]; exact hv)
      · rw [Function.update_noteq hnv] at hv
        exact h.slUniq u v hu hv
  · intro u hu
    rcases eq_or_ne u t with rfl | hne
    · rw [Function.update_same] at hu
      exact h.guardLocked u (by rw [hpc, ← hg]; exact hu)
    · rw [Function.update_noteq hne] at hu
      exact h.guardLocked u hu
  · intro u v hu hv
    rcases eq_or_ne u t with hut | hnu
    · rcases eq_or_ne v t with hvt | hnv
      · rw [hut, hvt]
      · rw [hut, Function.update_same] at hu
        rw [Function.update_noteq hnv] at hv
        rw [hut]
        exact h.guardUniq t v (by rw [hpc, ← hg]; exact hu) hv
    · rw [Function.update_noteq hnu] at hu
      rcases eq_or_ne v t with hvt | hnv
      · rw [hvt, Function.update_same] at hv
        rw [hvt]
        exact h.guardUniq u t hu (by rw [hpc, ← hg]; exact hv)
      · rw [Function.update_noteq hnv] at hv
        exact h.guardUniq u v hu hv
  · intro hl
    obtain ⟨u, hu⟩ := h.lockedGuard hl
    refine ⟨u, ?_⟩
    rcases eq_or_ne u t with rfl | hne
    · rw [Function.update_same, hg]
      rw [hpc] at hu
      exact hu
    · rw [Function.update_noteq hne]
      exact hu
  · intro u hu
    rcases eq_or_ne u t with rfl | hne
    · rw [Function.update_same] at hu
      exact hsf hu
    · rw [Function.update_noteq hne] at hu
      exact h.setFlagFree u hu
  · intro u hu
    rcases eq_or_ne u t with rfl | hne
    · rw [Function.update_same] at hu
      exact hue hu
    · rw [Function.update_noteq hne] at hu
      exact h.unlinkFree u hu
  · intro u
    rcases eq_or_ne u t with rfl | hne
    · rw [Function.update_same, hw, ← hpc]
      exact h.waitMem u
    · rw [Function.update_noteq hne]
      exact h.waitMem u
  · exact h.waitNodup
  · intro u r hu
    rcases eq_or_ne u t with rfl | hne
    · rw [Function.update_same] at hu
      exact hcs r hu
    · rw [Function.update_noteq hne] at hu
      exact h.csData u r hu
  · intro u hu
    rcases eq_or_ne u t with rfl | hne
    · rw [Function.update_same] at hu
      exact hm hu
    · rw [Function.update_noteq hne] at hu
      exact h.budgetPos u hu
  · intro u hu
    rcases eq_or_ne u t with rfl | hne
    · rw [Function.update_same] at hu
      exact hdn hu
    · rw [Function.update_noteq hne] at hu
      exact h.doneBudget u hu
  · exact h.totalSum

/-- Preservation helper: a successful compare-exchange in
`SpinLock::acquire` (line 27) — the flag was `false`, becomes `true`,
and thread `t` advances from a non-holding point `a` to a holding
point `b`. -/
theorem minv_slAcquire {n : Nat} {c : Nat} {s : MState n} (h : MInv c s) (t : Fin n) {a : PC} (b : PC)
    (hpc : s.pc t = a) (hfree : s.sl = false)
    (hg : guardHolder b = guardHolder a)
    (hw : waitLinked b = waitLinked a)
    (hm : midIncrement b = true → 1 ≤ s.budget t)
    (hsf : b = PC.setFlag → s.locked = false)
    (hue : b = PC.unlinkEntry → s.locked = false)
    (hcs : ∀ r, b = PC.csWrite r → s.data = r)
    (hdn : b = PC.done → s.budget t = 0) :
    MInv c { s with sl := true, pc := Function.update s.pc t b } := by
  have hnone : ∀ u, slHolder (s.pc u) = true → False := by
    intro u hu
    have := h.slOwner u hu
    rw [hfree] at this
    exact Bool.false_ne_true this
  refine ⟨?_, ?_, ?_, ?_, ?_, ?_, ?_, ?_, ?_, ?_, ?_, ?_, ?_⟩
  all_goals dsimp only
  · intro u _
    rfl
  · intro u v hu hv
    rcases eq_or_ne u t with hut | hnu
    · rcases eq_or_ne v t with hvt | hnv
      · rw [hut, hvt]
      · rw [Function.update_noteq hnv] at hv
        exact absurd hv (by intro hv2; exact hnone v hv2)
    · rw [Function.update_noteq hnu] at hu
      exact absurd hu (by intro hu2; exact hnone u hu2)
  · intro u hu
    rcases eq_or_ne u t with hut | hne
    · rw [hut, Function.update_same] at hu
      exact h.guardLocked t (by rw [hpc, ← hg]; exact hu)
    · rw [Function.update_noteq hne] at hu
      exact h.guardLocked u hu
  · intro u v hu hv
    rcases eq_or_ne u t with hut | hnu
    · rcases eq_or_ne v t with hvt | hnv
      · rw [hut, hvt]
      · rw [hut, Function.update_same] at hu
        rw [Function.update_noteq hnv] at hv
        rw [hut]
        exact h.guardUniq t v (by rw [hpc, ← hg]; exact hu) hv
    · rw [Function.update_noteq hnu] at hu
      rcases eq_or_ne v t with hvt | hnv
      · rw [hvt, Function.update_same] at hv
        rw [hvt]
        exact h.guardUniq u t hu (by rw [hpc, ← hg]; exact hv)
      · rw [Function.update_noteq hnv] at hv
        exact h.guardUniq u v hu hv
  · intro hl
    obtain ⟨u, hu⟩ := h.lockedGuard hl
    refine ⟨u, ?_⟩
    rcases eq_or_ne u t with hut | hne
    · rw [hut, Function.update_same, hg]
      rw [hut, hpc] at hu
      exact hu
    · rw [Function.update_noteq hne]
      exact hu
  · intro u hu
    rcases eq_or_ne u t with hut | hne
    · rw [hut, Function.update_same] at hu
      exact hsf hu
    · rw [Function.update_noteq hne] at hu
      exact h.setFlagFree u hu
  · intro u hu
    rcases eq_or_ne u t with hut | hne
    · rw [hut, Function.update_same] at hu
      exact hue hu
    · rw [Function.update_noteq hne] at hu
      exact h.unlinkFree u hu
  · intro u
    rcases eq_or_ne u t with hut | hne
    · rw [hut, Function.update_same, hw, ← hpc, ← hut]
      rw [hut]
      exact h.waitMem t
    · rw [Function.update_noteq hne]
      exact h.waitMem u
  · exact h.waitNodup
  · intro u r hu
    rcases eq_or_ne u t with hut | hne
    · rw [hut, Function.update_same] at hu
      exact hcs r hu
    · rw [Function.update_noteq hne] at hu
      exact h.csData u r hu
  · intro u hu
    rcases eq_or_ne u t with hut | hne
    · rw [hut, Function.update_same] at hu
      rw [hut]
      exact hm hu
    · rw [Function.update_noteq hne] at hu
      exact h.budgetPos u hu
  · intro u hu
    rcases eq_or_ne u t with hut | hne
    · rw [hut, Function.update_same] at hu
      rw [hut]
      exact hdn hu
    · rw [Function.update_noteq hne] at hu
      exact h.doneBudget u hu
  · exact h.totalSum

/-- Preservation helper: dropping a `SpinLockGuard` (line 46) — thread
`t` held the spin lock at point `a`, stores `false` into the flag and
advances to a non-holding point `b`. -/
theorem minv_slRelease {n : Nat} {c : Nat} {s : MState n} (h : MInv c s) (t : Fin n) {a : PC} (b : PC)
    (hpc : s.pc t = a) (ha : slHolder a = true) (hb : slHolder b = false)
    (hg : guardHolder b = guardHolder a)
    (hw : waitLinked b = waitLinked a)
    (hm : midIncrement b = true → 1 ≤ s.budget t)
    (hsf : b = PC.setFlag → s.locked = false)
    (hue : b = PC.unlinkEntry → s.locked = false)
    (hcs : ∀ r, b = PC.csWrite r → s.data = r)
    (hdn : b = PC.done → s.budget t = 0) :
    MInv c { s with sl := false, pc := Function.update s.pc t b } := by
  have hnone : ∀ u, slHolder (Function.update s.pc t b u) = true → False := by
    intro u hu
    rcases eq_or_ne u t with hut | hne
    · rw [hut, Function.update_same, hb] at hu
      exact Bool.false_ne_true hu
    · rw [Function.update_noteq hne] at hu
      exact hne (h.slUniq u t hu (by rw [hpc]; exact ha))
  refine ⟨?_, ?_, ?_, ?_, ?_, ?_, ?_, ?_, ?_, ?_, ?_, ?_, ?_⟩
  all_goals dsimp only
  · intro u hu
    exact absurd hu (by intro hu2; exact hnone u hu2)
  · intro u v hu hv
    exact absurd hu (by intro hu2; exact hnone u hu2)
  · intro u hu
    rcases eq_or_ne u t with hut | hne
    · rw [hut, Function.update_same] at hu
      exact h.guardLocked t (by rw [hpc, ← hg]; exact hu)
    · rw [Function.update_noteq hne] at hu
      exact h.guardLocked u hu
  · intro u v hu hv
    rcases eq_or_ne u t with hut | hnu
    · rcases eq_or_ne v t with hvt | hnv
      · rw [hut, hvt]
      · rw [hut, Function.update_same] at hu
        rw [Function.update_noteq hnv] at hv
        rw [hut]
        exact h.guardUniq t v (by rw [hpc, ← hg]; exact hu) hv
    · rw [Function.update_noteq hnu] at hu
      rcases eq_or_ne v t with hvt | hnv
      · rw [hvt, Function.update_same] at hv
        rw [hvt]
        exact h.guardUniq u t hu (by rw [hpc, ← hg]; exact hv)
      · rw [Function.update_noteq hnv] at hv
        exact h.guardUniq u v hu hv
  · intro hl
    obtain ⟨u, hu⟩ := h.lockedGuard hl
    refine ⟨u, ?_⟩
    rcases eq_or_ne u t with hut | hne
    · rw [hut, Function.update_same, hg]
      rw [hut, hpc] at hu
      exact hu
    · rw [Function.update_noteq hne]
      exact hu
  · intro u hu
    rcases eq_or_ne u t with hut | hne
    · rw [hut, Function.update_same] at hu
      exact hsf hu
    · rw [Function.update_noteq hne] at hu
      exact h.setFlagFree u hu
  · intro u hu
    rcases eq_or_ne u t with hut | hne
    · rw [hut, Function.update_same] at hu
      exact hue hu
    · rw [Function.update_noteq hne] at hu
      exact h.unlinkFree u hu
  · intro u
    rcases eq_or_ne u t with hut | hne
    · rw [hut, Function.update_same, hw, ← hpc, ← hut]
      rw [hut]
      exact h.waitMem t
    · rw [Function.update_noteq hne]
      exact h.waitMem u
  · exact h.waitNodup
  · intro u r hu
    rcases eq_or_ne u t with hut | hne
    · rw [hut, Function.update_same] at hu
      exact hcs r hu
    · rw [Function.update_noteq hne] at hu
      exact h.csData u r hu
  · intro u hu
    rcases eq_or_ne u t with hut | hne
    · rw [hut, Function.update_same] at hu
      rw [hut]
      exact hm hu
    · rw [Function.update_noteq hne] at hu
      exact h.budgetPos u hu
  · intro u hu
    rcases eq_or_ne u t with hut | hne
    · rw [hut, Function.update_same] at hu
      rw [hut]
      exact hdn hu
    · rw [Function.update_noteq hne] at hu
      exact h.doneBudget u hu
  · exact h.totalSum

/-- Preservation: `WaitEntry::insert_new` (lines 74-78 and 135-143) —
thread `t` links a wait entry carrying its own handle at the tail of the
wait list and moves to the `while` test. -/
theorem minv_insert {n : Nat} {c : Nat} {s : MState n} (h : MInv c s) (t : Fin n)
    (hpc : s.pc t = PC.insertEntry) :
    MInv c { s with waitList := s.waitList ++ [t],
                    pc := Function.update s.pc t PC.waitCheck } := by
  have hnotmem : t ∉ s.waitList := by
    intro hmem
    have := (h.waitMem t).mp hmem
    rw [hpc] at this
    exact Bool.false_ne_true this
  refine ⟨?_, ?_, ?_, ?_, ?_, ?_, ?_, ?_, ?_, ?_, ?_, ?_, ?_⟩
  all_goals dsimp only
  · intro u hu
    rcases eq_or_ne u t with hut | hne
    · exact h.slOwner t (by rw [hpc]; rfl)
    · rw [Function.update_noteq hne] at hu
      exact h.slOwner u hu
  · intro u v hu hv
    rcases eq_or_ne u t with hut | hnu
    · rcases eq_or_ne v t with hvt | hnv
      · rw [hut, hvt]
      · rw [Function.update_noteq hnv] at hv
        rw [hut]
        exact h.slUniq t v (by rw [hpc]; rfl) hv
    · rw [Function.update_noteq hnu] at hu
      rcases eq_or_ne v t with hvt | hnv
      · rw [hvt]
        exact h.slUniq u t hu (by rw [hpc]; rfl)
      · rw [Function.update_noteq hnv] at hv
        exact h.slUniq u v hu hv
  · intro u hu
    rcases eq_or_ne u t with hut | hne
    · rw [hut, Function.update_same] at hu
      exact absurd hu (by decide)
    · rw [Function.update_noteq hne] at hu
      exact h.guardLocked u hu
  · intro u v hu hv
    rcases eq_or_ne u t with hut | hnu
    · rw [hut, Function.update_same] at hu
      exact absurd hu (by decide)
    · rw [Function.update_noteq hnu] at hu
      rcases eq_or_ne v t with hvt | hnv
      · rw [hvt, Function.update_same] at hv
        exact absurd hv (by decide)
      · rw [Function.update_noteq hnv] at hv
        exact h.guardUniq u v hu hv
  · intro hl
    obtain ⟨u, hu⟩ := h.lockedGuard hl
    have hne : u ≠ t := by
      intro hut
      rw [hut, hpc] at hu
      exact Bool.false_ne_true hu
    refine ⟨u, ?_⟩
    rw [Function.update_noteq hne]
    exact hu
  · intro u hu
    rcases eq_or_ne u t with hut | hne
    · rw [hut, Function.update_same] at hu
      exact absurd hu (by decide)
    · rw [Function.update_noteq hne] at hu
      exact h.setFlagFree u hu
  · intro u hu
    rcases eq_or_ne u t with hut | hne
    · rw [hut, Function.update_same] at hu
      exact absurd hu (by decide)
    · rw [Function.update_noteq hne] at hu
      exact h.unlinkFree u hu
  · intro u
    rcases eq_or_ne u t with hut | hne
    · rw [hut, Function.update_same]
      simp [List.mem_append, waitLinked]
    · rw [Function.update_noteq hne]
      rw [List.mem_append]
      simp only [List.mem_singleton]
      constructor
      · intro hor
        rcases hor with hm | he
        · exact (h.waitMem u).mp hm
        · exact absurd he hne
      · intro hw
        exact Or.inl ((h.waitMem u).mpr hw)
  · rw [List.nodup_append]
    exact ⟨h.waitNodup, List.nodup_singleton t, by
      intro x hx hx2
      rw [List.mem_singleton] at hx2
      rw [hx2] at hx
      exact hnotmem hx⟩
  · intro u r hu
    rcases eq_or_ne u t with hut | hne
    · rw [hut, Function.update_same] at hu
      exact PC.noConfusion hu
    · rw [Function.update_noteq hne] at hu
      exact h.csData u r hu
  · intro u hu
    rcases eq_or_ne u t with hut | hne
    · rw [hut]
      exact h.budgetPos t (by rw [hpc]; rfl)
    · rw [Function.update_noteq hne] at hu
      exact h.budgetPos u hu
  · intro u hu
    rcases eq_or_ne u t with hut | hne
    · rw [hut, Function.update_same] at hu
      exact absurd hu (by decide)
    · rw [Function.update_noteq hne] at hu
      exact h.doneBudget u hu
  · exact h.totalSum

/-- Preservation: `drop(wait_entry)` (line 84) — thread `t`, holding the
spin lock and having observed `locked == false`, unlinks its own wait
entry and moves on to set the flag. -/
theorem minv_unlink {n : Nat} {c : Nat} {s : MState n} (h : MInv c s) (t : Fin n)
    (hpc : s.pc t = PC.unlinkEntry) :
    MInv c { s with waitList := s.waitList.erase t,
                    pc := Function.update s.pc t PC.setFlag } := by
  refine ⟨?_, ?_, ?_, ?_, ?_, ?_, ?_, ?_, ?_, ?_, ?_, ?_, ?_⟩
  all_goals dsimp only
  · intro u hu
    rcases eq_or_ne u t with hut | hne
    · exact h.slOwner t (by rw [hpc]; rfl)
    · rw [Function.update_noteq hne] at hu
      exact h.slOwner u hu
  · intro u v hu hv
    rcases eq_or_ne u t with hut | hnu
    · rcases eq_or_ne v t with hvt | hnv
      · rw [hut, hvt]
      · rw [Function.update_noteq hnv] at hv
        rw [hut]
        exact h.slUniq t v (by rw [hpc]; rfl) hv
    · rw [Function.update_noteq hnu] at hu
      rcases eq_or_ne v t with hvt | hnv
      · rw [hvt]
        exact h.slUniq u t hu (by rw [hpc]; rfl)
      · rw [Function.update_noteq hnv] at hv
        exact h.slUniq u v hu hv
  · intro u hu
    rcases eq_or_ne u t with hut | hne
    · rw [hut, Function.update_same] at hu
      exact absurd hu (by decide)
    · rw [Function.update_noteq hne] at hu
      exact h.guardLocked u hu
  · intro u v hu hv
    rcases eq_or_ne u t with hut | hnu
    · rw [hut, Function.update_same] at hu
      exact absurd hu (by decide)
    · rw [Function.update_noteq hnu] at hu
      rcases eq_or_ne v t with hvt | hnv
      · rw [hvt, Function.update_same] at hv
        exact absurd hv (by decide)
      · rw [Function.update_noteq hnv] at hv
        exact h.guardUniq u v hu hv
  · intro hl
    have := h.unlinkFree t hpc
    rw [this] at hl
    exact absurd hl (by decide)
  · intro u hu
    rcases eq_or_ne u t with hut | hne
    · exact h.unlinkFree t hpc
    · rw [Function.update_noteq hne] at hu
      exact h.setFlagFree u hu
  · intro u hu
    rcases eq_or_ne u t with hut | hne
    · rw [hut, Function.update_same] at hu
      exact absurd hu (by decide)
    · rw [Function.update_noteq hne] at hu
      exact h.unlinkFree u hu
  · intro u
    rcases eq_or_ne u t with hut | hne
    · rw [hut, Function.update_same]
      simp only [waitLinked]
      constructor
      · intro hmem
        exact absurd ((h.waitNodup.mem_erase_iff.mp hmem).1) (by simp)
      · intro hfalse
        exact absurd hfalse (by decide)
    · rw [Function.update_noteq hne]
      rw [List.mem_erase_of_ne hne]
      exact h.waitMem u
  · exact h.waitNodup.erase t
  · intro u r hu
    rcases eq_or_ne u t with hut | hne
    · rw [hut, Function.update_same] at hu
      exact PC.noConfusion hu
    · rw [Function.update_noteq hne] at hu
      exact h.csData u r hu
  · intro u hu
    rcases eq_or_ne u t with hut | hne
    · rw [hut]
      exact h.budgetPos t (by rw [hpc]; rfl)
    · rw [Function.update_noteq hne] at hu
      exact h.budgetPos u hu
  · intro u hu
    rcases eq_or_ne u t with hut | hne
    · rw [hut, Function.update_same] at hu
      exact absurd hu (by decide)
    · rw [Function.update_noteq hne] at hu
      exact h.doneBudget u hu
  · exact h.totalSum

/-- Preservation: `self.locked.set(true)` (line 86) — thread `t`, holding
the spin lock with `locked == false`, sets the flag and becomes the
mutex holder. -/
theorem minv_setFlag {n : Nat} {c : Nat} {s : MState n} (h : MInv c s) (t : Fin n)
    (hpc : s.pc t = PC.setFlag) :
    MInv c { s with locked := true,
                    pc := Function.update s.pc t PC.retGuard } := by
  have hfree : s.locked = false := h.setFlagFree t hpc
  have hnoguard : ∀ u, guardHolder (s.pc u) = true → False := by
    intro u hu
    have := h.guardLocked u hu
    rw [hfree] at this
    exact Bool.false_ne_true this
  refine ⟨?_, ?_, ?_, ?_, ?_, ?_, ?_, ?_, ?_, ?_, ?_, ?_, ?_⟩
  all_goals dsimp only
  · intro u hu
    rcases eq_or_ne u t with hut | hne
    · exact h.slOwner t (by rw [hpc]; rfl)
    · rw [Function.update_noteq hne] at hu
      exact h.slOwner u hu
  · intro u v hu hv
    rcases eq_or_ne u t with hut | hnu
    · rcases eq_or_ne v t with hvt | hnv
      · rw [hut, hvt]
      · rw [Function.update_noteq hnv] at hv
        rw [hut]
        exact h.slUniq t v (by rw [hpc]; rfl) hv
    · rw [Function.update_noteq hnu] at hu
      rcases eq_or_ne v t with hvt | hnv
      · rw [hvt]
        exact h.slUniq u t hu (by rw [hpc]; rfl)
      · rw [Function.update_noteq hnv] at hv
        exact h.slUniq u v hu hv
  · intro u _
    rfl
  · intro u v hu hv
    rcases eq_or_ne u t with hut | hnu
    · rcases eq_or_ne v t with hvt | hnv
      · rw [hut, hvt]
      · rw [Function.update_noteq hnv] at hv
        exact absurd hv (by intro hv2; exact hnoguard v hv2)
    · rw [Function.update_noteq hnu] at hu
      exact absurd hu (by intro hu2; exact hnoguard u hu2)
  · intro _
    exact ⟨t, by rw [Function.update_same]; rfl⟩
  · intro u hu
    rcases eq_or_ne u t with hut | hne
    · rw [hut, Function.update_same] at hu
      exact absurd hu (by decide)
    · rw [Function.update_noteq hne] at hu
      exact absurd (h.slUniq u t (by rw [hu]; rfl) (by rw [hpc]; rfl)) hne
  · intro u hu
    rcases eq_or_ne u t with hut | hne
    · rw [hut, Function.update_same] at hu
      exact absurd hu (by decide)
    · rw [Function.update_noteq hne] at hu
      exact absurd (h.slUniq u t (by rw [hu]; rfl) (by rw [hpc]; rfl)) hne
  · intro u
    rcases eq_or_ne u t with hut | hne
    · rw [hut, Function.update_same]
      have hw := h.waitMem t
      rw [hpc] at hw
      exact hw
    · rw [Function.update_noteq hne]
      exact h.waitMem u
  · exact h.waitNodup
  · intro u r hu
    rcases eq_or_ne u t with hut | hne
    · rw [hut, Function.update_same] at hu
      exact PC.noConfusion hu
    · rw [Function.update_noteq hne] at hu
      exact h.csData u r hu
  · intro u hu
    rcases eq_or_ne u t with hut | hne
    · rw [hut]
      exact h.budgetPos t (by rw [hpc]; rfl)
    · rw [Function.update_noteq hne] at hu
      exact h.budgetPos u hu
  · intro u hu
    rcases eq_or_ne u t with hut | hne
    · rw [hut, Function.update_same] at hu
      exact absurd hu (by decide)
    · rw [Function.update_noteq hne] at hu
      exact h.doneBudget u hu
  · exact h.totalSum

/-- Preservation: the write half of `*mtx.lock() += 1` (line 157) —
thread `t`, holding the mutex guard, stores `r + 1` into the counter,
completes one increment of its workload, and begins dropping the guard. -/
theorem minv_csWrite {n : Nat} {c : Nat} {s : MState n} (h : MInv c s) (t : Fin n) (r : Nat)
    (hpc : s.pc t = PC.csWrite r) :
    MInv c { s with data := r + 1,
                    budget := Function.update s.budget t (s.budget t - 1),
                    pc := Function.update s.pc t PC.relAcq } := by
  refine ⟨?_, ?_, ?_, ?_, ?_, ?_, ?_, ?_, ?_, ?_, ?_, ?_, ?_⟩
  all_goals dsimp only
  · intro u hu
    rcases eq_or_ne u t with hut | hne
    · rw [hut, Function.update_same] at hu
      exact absurd hu (by decide)
    · rw [Function.update_noteq hne] at hu
      exact h.slOwner u hu
  · intro u v hu hv
    rcases eq_or_ne u t with hut | hnu
    · rw [hut, Function.update_same] at hu
      exact absurd hu (by decide)
    · rw [Function.update_noteq hnu] at hu
      rcases eq_or_ne v t with hvt | hnv
      · rw [hvt, Function.update_same] at hv
        exact absurd hv (by decide)
      · rw [Function.update_noteq hnv] at hv
        exact h.slUniq u v hu hv
  · intro u hu
    rcases eq_or_ne u t with hut | hne
    · exact h.guardLocked t (by rw [hpc]; rfl)
    · rw [Function.update_noteq hne] at hu
      exact h.guardLocked u hu
  · intro u v hu hv
    rcases eq_or_ne u t with hut | hnu
    · rcases eq_or_ne v t with hvt | hnv
      · rw [hut, hvt]
      · rw [Function.update_noteq hnv] at hv
        rw [hut]
        exact h.guardUniq t v (by rw [hpc]; rfl) hv
    · rw [Function.update_noteq hnu] at hu
      rcases eq_or_ne v t with hvt | hnv
      · rw [hvt]
        exact h.guardUniq u t hu (by rw [hpc]; rfl)
      · rw [Function.update_noteq hnv] at hv
        exact h.guardUniq u v hu hv
  · intro _
    exact ⟨t, by rw [Function.update_same]; rfl⟩
  · intro u hu
    rcases eq_or_ne u t with hut | hne
    · rw [hut, Function.update_same] at hu
      exact PC.noConfusion hu
    · rw [Function.update_noteq hne] at hu
      exact h.setFlagFree u hu
  · intro u hu
    rcases eq_or_ne u t with hut | hne
    · rw [hut, Function.update_same] at hu
      exact PC.noConfusion hu
    · rw [Function.update_noteq hne] at hu
      exact h.unlinkFree u hu
  · intro u
    rcases eq_or_ne u t with hut | hne
    · rw [hut, Function.update_same]
      have hw := h.waitMem t
      rw [hpc] at hw
      exact hw
    · rw [Function.update_noteq hne]
      exact h.waitMem u
  · exact h.waitNodup
  · intro u r2 hu
    rcases eq_or_ne u t with hut | hne
    · rw [hut, Function.update_same] at hu
      exact PC.noConfusion hu
    · rw [Function.update_noteq hne] at hu
      exact absurd (h.guardUniq u t (by rw [hu]; rfl) (by rw [hpc]; rfl)) hne
  · intro u hu
    rcases eq_or_ne u t with hut | hne
    · rw [hut, Function.update_same] at hu
      exact absurd hu (by decide)
    · rw [Function.update_noteq hne] at hu
      rw [Function.update_noteq hne]
      exact h.budgetPos u hu
  · intro u hu
    rcases eq_or_ne u t with hut | hne
    · rw [hut, Function.update_same] at hu
      exact PC.noConfusion hu
    · rw [Function.update_noteq hne] at hu
      rw [Function.update_noteq hne]
      exact h.doneBudget u hu
  · have hd := h.csData t r hpc
    have hb : 1 ≤ s.budget t := h.budgetPos t (by rw [hpc]; rfl)
    have hsum := h.totalSum
    rw [← Finset.add_sum_erase Finset.univ s.budget (Finset.mem_univ t)] at hsum
    rw [Finset.sum_update_of_mem (Finset.mem_univ t), Finset.sdiff_singleton_eq_erase]
    omega

/-- Preservation: `self.mtx.locked.set(false)` (line 102) — thread `t`,
holding the spin lock inside `MutexGuard::drop`, clears the flag and
moves to the notification step. -/
theorem minv_relSet {n : Nat} {c : Nat} {s : MState n} (h : MInv c s) (t : Fin n)
    (hpc : s.pc t = PC.relSet) :
    MInv c { s with locked := false,
                    pc := Function.update s.pc t PC.relNotify } := by
  have hnoguard : ∀ u, u ≠ t → guardHolder (s.pc u) = true → False := by
    intro u hne hu
    exact hne (h.guardUniq u t hu (by rw [hpc]; rfl))
  refine ⟨?_, ?_, ?_, ?_, ?_, ?_, ?_, ?_, ?_, ?_, ?_, ?_, ?_⟩
  all_goals dsimp only
  · intro u hu
    rcases eq_or_ne u t with hut | hne
    · exact h.slOwner t (by rw [hpc]; rfl)
    · rw [Function.update_noteq hne] at hu
      exact h.slOwner u hu
  · intro u v hu hv
    rcases eq_or_ne u t with hut | hnu
    · rcases eq_or_ne v t with hvt | hnv
      · rw [hut, hvt]
      · rw [Function.update_noteq hnv] at hv
        rw [hut]
        exact h.slUniq t v (by rw [hpc]; rfl) hv
    · rw [Function.update_noteq hnu] at hu
      rcases eq_or_ne v t with hvt | hnv
      · rw [hvt]
        exact h.slUniq u t hu (by rw [hpc]; rfl)
      · rw [Function.update_noteq hnv] at hv
        exact h.slUniq u v hu hv
  · intro u hu
    rcases eq_or_ne u t with hut | hne
    · rw [hut, Function.update_same] at hu
      exact absurd hu (by decide)
    · rw [Function.update_noteq hne] at hu
      exact absurd hu (by intro hu2; exact hnoguard u hne hu2)
  · intro u v hu hv
    rcases eq_or_ne u t with hut | hnu
    · rw [hut, Function.update_same] at hu
      exact absurd hu (by decide)
    · rw [Function.update_noteq hnu] at hu
      exact absurd hu (by intro hu2; exact hnoguard u hnu hu2)
  · intro hl
    exact absurd hl (by decide)
  · intro u _
    rfl
  · intro u _
    rfl
  · intro u
    rcases eq_or_ne u t with hut | hne
    · rw [hut, Function.update_same]
      have hw := h.waitMem t
      rw [hpc] at hw
      exact hw
    · rw [Function.update_noteq hne]
      exact h.waitMem u
  · exact h.waitNodup
  · intro u r hu
    rcases eq_or_ne u t with hut | hne
    · rw [hut, Function.update_same] at hu
      exact PC.noConfusion hu
    · rw [Function.update_noteq hne] at hu
      exact h.csData u r hu
  · intro u hu
    rcases eq_or_ne u t with hut | hne
    · rw [hut, Function.update_same] at hu
      exact absurd hu (by decide)
    · rw [Function.update_noteq hne] at hu
      exact h.budgetPos u hu
  · intro u hu
    rcases eq_or_ne u t with hut | hne
    · rw [hut, Function.update_same] at hu
      exact PC.noConfusion hu
    · rw [Function.update_noteq hne] at hu
      exact h.doneBudget u hu
  · exact h.totalSum

/-- The protocol invariant is preserved by every thread step. -/
theorem minv_tstep {n : Nat} {c : Nat} {s : MState n} (h : MInv c s) (t : Fin n) :
    MInv c (tstep t s) := by
  cases hpc : s.pc t with
  | idle =>
      by_cases hb : s.budget t = 0
      · simp only [tstep, hpc, if_pos hb]
        exact minv_pcMove h t PC.done hpc rfl rfl rfl (fun hx => absurd hx (by decide))
          (fun hx => PC.noConfusion hx) (fun hx => PC.noConfusion hx)
          (fun r hr => PC.noConfusion hr) (fun _ => hb) s.unparkLog
      · simp only [tstep, hpc, if_neg hb]
        exact minv_pcMove h t PC.lockAcq hpc rfl rfl rfl (fun _ => Nat.one_le_iff_ne_zero.mpr hb)
          (fun hx => PC.noConfusion hx) (fun hx => PC.noConfusion hx)
          (fun r hr => PC.noConfusion hr) (fun hx => PC.noConfusion hx) s.unparkLog
  | lockAcq =>
      by_cases hsl : s.sl = true
      · simp only [tstep, hpc, if_pos hsl]
        exact h
      · have hfree : s.sl = false := by simpa using hsl
        simp only [tstep, hpc, if_neg hsl]
        exact minv_slAcquire h t PC.lockTest hpc hfree rfl rfl
          (fun _ => h.budgetPos t (by rw [hpc]; rfl))
          (fun hx => PC.noConfusion hx) (fun hx => PC.noConfusion hx)
          (fun r hr => PC.noConfusion hr) (fun hx => PC.noConfusion hx)
  | lockTest =>
      by_cases hl : s.locked = true
      · simp only [tstep, hpc, if_pos hl]
        exact minv_pcMove h t PC.insertEntry hpc rfl rfl rfl
          (fun _ => h.budgetPos t (by rw [hpc]; rfl))
          (fun hx => PC.noConfusion hx) (fun hx => PC.noConfusion hx)
          (fun r hr => PC.noConfusion hr) (fun hx => PC.noConfusion hx) s.unparkLog
      · have hfree : s.locked = false := by simpa using hl
        simp only [tstep, hpc, if_neg hl]
        exact minv_pcMove h t PC.setFlag hpc rfl rfl rfl
          (fun _ => h.budgetPos t (by rw [hpc]; rfl))
          (fun _ => hfree) (fun hx => PC.noConfusion hx)
          (fun r hr => PC.noConfusion hr) (fun hx => PC.noConfusion hx) s.unparkLog
  | insertEntry =>
      simp only [tstep, hpc]
      exact minv_insert h t hpc
  | waitCheck =>
      by_cases hl : s.locked = true
      · simp only [tstep, hpc, if_pos hl]
        exact minv_slRelease h t PC.parked hpc rfl rfl rfl rfl
          (fun _ => h.budgetPos t (by rw [hpc]; rfl))
          (fun hx => PC.noConfusion hx) (fun hx => PC.noConfusion hx)
          (fun r hr => PC.noConfusion hr) (fun hx => PC.noConfusion hx)
      · have hfree : s.locked = false := by simpa using hl
        simp only [tstep, hpc, if_neg hl]
        exact minv_pcMove h t PC.unlinkEntry hpc rfl rfl rfl
          (fun _ => h.budgetPos t (by rw [hpc]; rfl))
          (fun hx => PC.noConfusion hx) (fun _ => hfree)
          (fun r hr => PC.noConfusion hr) (fun hx => PC.noConfusion hx) s.unparkLog
  | parked =>
      simp only [tstep, hpc]
      exact minv_pcMove h t PC.waitReacq hpc rfl rfl rfl
        (fun _ => h.budgetPos t (by rw [hpc]; rfl))
        (fun hx => PC.noConfusion hx) (fun hx => PC.noConfusion hx)
        (fun r hr => PC.noConfusion hr) (fun hx => PC.noConfusion hx) s.unparkLog
  | waitReacq =>
      by_cases hsl : s.sl = true
      · simp only [tstep, hpc, if_pos hsl]
        exact h
      · have hfree : s.sl = false := by simpa using hsl
        simp only [tstep, hpc, if_neg hsl]
        exact minv_slAcquire h t PC.waitCheck hpc hfree rfl rfl
          (fun _ => h.budgetPos t (by rw [hpc]; rfl))
          (fun hx => PC.noConfusion hx) (fun hx => PC.noConfusion hx)
          (fun r hr => PC.noConfusion hr) (fun hx => PC.noConfusion hx)
  | unlinkEntry =>
      simp only [tstep, hpc]
      exact minv_unlink h t hpc
  | setFlag =>
      simp only [tstep, hpc]
      exact minv_setFlag h t hpc
  | retGuard =>
      simp only [tstep, hpc]
      exact minv_slRelease h t PC.csRead hpc rfl rfl rfl rfl
        (fun _ => h.budgetPos t (by rw [hpc]; rfl))
        (fun hx => PC.noConfusion hx) (fun hx => PC.noConfusion hx)
        (fun r hr => PC.noConfusion hr) (fun hx => PC.noConfusion hx)
  | csRead =>
      simp only [tstep, hpc]
      exact minv_pcMove h t (PC.csWrite s.data) hpc rfl rfl rfl
        (fun _ => h.budgetPos t (by rw [hpc]; rfl))
        (fun hx => PC.noConfusion hx) (fun hx => PC.noConfusion hx)
        (fun r hr => by injection hr)
        (fun hx => PC.noConfusion hx) s.unparkLog
  | csWrite r =>
      simp only [tstep, hpc]
      exact minv_csWrite h t r hpc
  | relAcq =>
      by_cases hsl : s.sl = true
      · simp only [tstep, hpc, if_pos hsl]
        exact h
      · have hfree : s.sl = false := by simpa using hsl
        simp only [tstep, hpc, if_neg hsl]
        exact minv_slAcquire h t PC.relSet hpc hfree rfl rfl
          (fun hx => absurd hx (by decide))
          (fun hx => PC.noConfusion hx) (fun hx => PC.noConfusion hx)
          (fun r hr => PC.noConfusion hr) (fun hx => PC.noConfusion hx)
  | relSet =>
      simp only [tstep, hpc]
      exact minv_relSet h t hpc
  | relNotify =>
      cases hh : s.waitList.head? with
      | none =>
          simp only [tstep, hpc, hh]
          exact minv_pcMove h t PC.relDone hpc rfl rfl rfl (fun hx => absurd hx (by decide))
            (fun hx => PC.noConfusion hx) (fun hx => PC.noConfusion hx)
            (fun r hr => PC.noConfusion hr) (fun hx => PC.noConfusion hx) s.unparkLog
      | some u =>
          simp only [tstep, hpc, hh]
          exact minv_pcMove h t PC.relDone hpc rfl rfl rfl (fun hx => absurd hx (by decide))
            (fun hx => PC.noConfusion hx) (fun hx => PC.noConfusion hx)
            (fun r hr => PC.noConfusion hr) (fun hx => PC.noConfusion hx)
            (s.unparkLog ++ [u])
  | relDone =>
      simp only [tstep, hpc]
      exact minv_slRelease h t PC.idle hpc rfl rfl rfl rfl (fun hx => absurd hx (by decide))
        (fun hx => PC.noConfusion hx) (fun hx => PC.noConfusion hx)
        (fun r hr => PC.noConfusion hr) (fun hx => PC.noConfusion hx)
  | done =>
      simp only [tstep, hpc]
      exact h

/-- The protocol invariant holds in every reachable state of the
demonstration. -/
theorem minv_reach {n m : Nat} {s : MState n} (h : Reach (initState n m) s) :
    MInv (n * m) s := by
  induction h with
  | refl => exact minv_initState n m
  | step t s2 _ ih => exact minv_tstep ih t

/-- Reachability is transitive. -/
theorem reach_trans {n : Nat} {s0 s1 s2 : MState n}
    (h1 : Reach s0 s1) (h2 : Reach s1 s2) : Reach s0 s2 := by
  induction h2 with
  | refl => exact h1
  | step t s ih ih2 => exact Reach.step t s ih2

/-- Every finite schedule yields a reachable state. -/
theorem reach_runTrace {n : Nat} (s0 : MState n) (ts : List (Fin n)) :
    Reach s0 (runTrace s0 ts) := by
  induction ts generalizing s0 with
  | nil => exact Reach.refl
  | cons t ts2 ih =>
      exact reach_trans (Reach.step t s0 Reach.refl) (ih (tstep t s0))

/-- A step of thread `u` never changes another thread's program
counter. -/
theorem tstep_pc_ne {n : Nat} (s : MState n) {t u : Fin n} (hne : t ≠ u) :
    (tstep u s).pc t = s.pc t := by
  cases hpc : s.pc u <;> simp only [tstep, hpc] <;>
    repeat' first
      | rfl
      | (split <;> try rfl)
      | dsimp only
      | rw [Function.update_noteq hne]

/-- While thread `t` holds the spin lock, a step of any other thread
leaves `locked`, the wait list, the spin-lock flag and `t`'s program
counter unchanged (those are only touched under the spin lock). -/
theorem tstep_frame {n : Nat} {c : Nat} {s : MState n} (h : MInv c s) {t u : Fin n}
    (hne : u ≠ t) (hsl : slHolder (s.pc t) = true) :
    (tstep u s).locked = s.locked ∧ (tstep u s).waitList = s.waitList ∧
    (tstep u s).sl = s.sl ∧ (tstep u s).pc t = s.pc t := by
  have hnt : t ≠ u := fun he => hne he.symm
  have hu : ¬ slHolder (s.pc u) = true := fun hh => hne (h.slUniq u t hh hsl)
  have hslt : s.sl = true := h.slOwner t hsl
  cases hpc : s.pc u with
  | idle =>
      by_cases hb : s.budget u = 0
      · simp only [tstep, hpc, if_pos hb]
        simp [Function.update_noteq hnt]
      · simp only [tstep, hpc, if_neg hb]
        simp [Function.update_noteq hnt]
  | lockAcq =>
      simp only [tstep, hpc, if_pos hslt]
      simp
  | lockTest => rw [hpc] at hu; exact absurd rfl hu
  | insertEntry => rw [hpc] at hu; exact absurd rfl hu
  | waitCheck => rw [hpc] at hu; exact absurd rfl hu
  | parked =>
      simp only [tstep, hpc]
      simp [Function.update_noteq hnt]
  | waitReacq =>
      simp only [tstep, hpc, if_pos hslt]
      simp
  | unlinkEntry => rw [hpc] at hu; exact absurd rfl hu
  | setFlag => rw [hpc] at hu; exact absurd rfl hu
  | retGuard => rw [hpc] at hu; exact absurd rfl hu
  | csRead =>
      simp only [tstep, hpc]
      simp [Function.update_noteq hnt]
  | csWrite r =>
      simp only [tstep, hpc]
      simp [Function.update_noteq hnt]
  | relAcq =>
      simp only [tstep, hpc, if_pos hslt]
      simp
  | relSet => rw [hpc] at hu; exact absurd rfl hu
  | relNotify => rw [hpc] at hu; exact absurd rfl hu
  | relDone => rw [hpc] at hu; exact absurd rfl hu
  | done =>
      simp only [tstep, hpc]
      simp

/-- A chain only depends on the pointers at its own nodes. -/
theorem chain_congr {s s2 : DList} : ∀ {a : Nat} {l : List Nat} {b : Nat},
    (∀ x, x = a ∨ x ∈ l → s2.next x = s.next x) →
    (∀ x, x ∈ l ∨ x = b → s2.prev x = s.prev x) →
    chain s a l b → chain s2 a l b := by
  intro a l
  induction l generalizing a with
  | nil =>
      intro b hn hp hc
      simp only [chain] at hc ⊢
      exact ⟨by rw [hn a (Or.inl rfl)]; exact hc.1,
             by rw [hp b (Or.inr rfl)]; exact hc.2⟩
  | cons x xs ih =>
      intro b hn hp hc
      simp only [chain] at hc ⊢
      refine ⟨by rw [hn a (Or.inl rfl)]; exact hc.1,
              by rw [hp x (Or.inl (List.mem_cons_self x xs))]; exact hc.2.1, ?_⟩
      refine ih ?_ ?_ hc.2.2
      · intro y hy
        refine hn y (Or.inr ?_)
        rcases hy with h1 | h2
        · exact h1 ▸ List.mem_cons_self x xs
        · exact List.mem_cons_of_mem x h2
      · intro y hy
        rcases hy with h1 | h2
        · exact hp y (Or.inl (List.mem_cons_of_mem x h1))
        · exact hp y (Or.inr h2)

/-- Splitting the last node off a chain. -/
theorem chain_append_one (s : DList) : ∀ (a : Nat) (l : List Nat) (x b : Nat),
    chain s a (l ++ [x]) b ↔ (chain s a l x ∧ s.next x = b ∧ s.prev b = x) := by
  intro a l
  induction l generalizing a with
  | nil =>
      intro x b
      simp only [List.nil_append, chain]
      constructor
      · rintro ⟨h1, h2, h3, h4⟩
        exact ⟨⟨h1, h2⟩, h3, h4⟩
      · rintro ⟨⟨h1, h2⟩, h3, h4⟩
        exact ⟨h1, h2, h3, h4⟩
  | cons y ys ih =>
      intro x b
      simp only [List.cons_append, chain]
      constructor
      · rintro ⟨h1, h2, h3⟩
        have h4 := (ih y x b).mp h3
        exact ⟨⟨h1, h2, h4.1⟩, h4.2⟩
      · rintro ⟨⟨h1, h2, h3⟩, h4⟩
        exact ⟨h1, h2, (ih y x b).mpr ⟨h3, h4⟩⟩

/-- `insert_before_sentinel` appends the new node at the tail of the
traversal order: the chain of the circular list grows by exactly the new
node, placed immediately before the sentinel. -/
theorem insertPrev_chain (s : DList) (sent : Nat) (l : List Nat) (node : Nat)
    (hch : chain s sent l sent) (hnd : (sent :: l).Nodup) (hnew : node ∉ sent :: l) :
    chain (s.insertPrev sent node) sent (l ++ [node]) sent := by
  have hns : node ≠ sent := by
    intro he
    exact hnew (he ▸ List.mem_cons_self sent l)
  have hnl : node ∉ l := fun hm => hnew (List.mem_cons_of_mem sent hm)
  rcases List.eq_nil_or_concat' l with rfl | ⟨l2, m, rfl⟩
  · obtain ⟨h1, h2⟩ : s.next sent = sent ∧ s.prev sent = sent := hch
    simp only [List.nil_append, chain]
    refine ⟨?_, ?_, ?_, ?_⟩
    · simp [DList.insertPrev, h2]
    · simp [DList.insertPrev, hns, h2]
    · simp [DList.insertPrev, h2, hns]
    · simp [DList.insertPrev]
  · rw [chain_append_one] at hch
    obtain ⟨hch2, hnm, hpm⟩ := hch
    have hsl2 : sent ∉ l2 ++ [m] := (List.nodup_cons.mp hnd).1
    have hnd1 : (l2 ++ [m]).Nodup := (List.nodup_cons.mp hnd).2
    have hsent_l2 : sent ∉ l2 := fun hm2 => hsl2 (List.mem_append_left _ hm2)
    have hsent_m : sent ≠ m := fun he =>
      hsl2 (List.mem_append_right _ (he ▸ List.mem_singleton_self m))
    have hm_l2 : m ∉ l2 := fun hm2 =>
      (List.nodup_append.mp hnd1).2.2 hm2 (List.mem_singleton_self m)
    have hnode_l2 : node ∉ l2 := fun hm2 => hnl (List.mem_append_left _ hm2)
    have hnode_m : node ≠ m := fun he =>
      hnl (List.mem_append_right _ (he ▸ List.mem_singleton_self m))
    rw [chain_append_one, chain_append_one]
    refine ⟨⟨?_, ?_, ?_⟩, ?_, ?_⟩
    · refine chain_congr ?_ ?_ hch2
      · intro x hx
        have hxm : x ≠ m := by
          rcases hx with h1 | h2
          · exact h1 ▸ hsent_m
          · intro he
            exact hm_l2 (he ▸ h2)
        have hxnode : x ≠ node := by
          rcases hx with h1 | h2
          · exact h1 ▸ (Ne.symm hns)
          · intro he
            exact hnode_l2 (he ▸ h2)
        simp [DList.insertPrev, hpm, hxm, hxnode]
      · intro x hx
        have hxs : x ≠ sent := by
          rcases hx with h1 | h2
          · intro he
            exact hsent_l2 (he ▸ h1)
          · exact h2 ▸ (Ne.symm hsent_m)
        have hxnode : x ≠ node := by
          rcases hx with h1 | h2
          · intro he
            exact hnode_l2 (he ▸ h1)
          · exact h2 ▸ (Ne.symm hnode_m)
        simp [DList.insertPrev, hxs, hxnode]
    · simp [DList.insertPrev, hpm]
    · simp [DList.insertPrev, hns, hpm]
    · simp [DList.insertPrev, hpm, hnode_m, hns]
    · simp [DList.insertPrev]

/-- Claim C1: mutual exclusion — in every reachable state of a mutex
instance, `locked == true` iff some thread currently holds a
`MutexGuard`, and at most one thread holds a guard at any time, so the
active intervals of two guards on the same mutex never overlap. -/
theorem c1_mutual_exclusion {n m : Nat} {s : MState n}
    (hreach : Reach (initState n m) s) :
    (s.locked = true ↔ ∃ t, guardHolder (s.pc t) = true) ∧
    (∀ t u, guardHolder (s.pc t) = true → guardHolder (s.pc u) = true → t = u) := by
  have h := minv_reach hreach
  exact ⟨⟨fun hl => h.lockedGuard hl, fun ⟨t, ht⟩ => h.guardLocked t ht⟩, h.guardUniq⟩

/-- Witness for C1 at the initial two-thread demonstration state. -/
theorem c1_mutual_exclusion_witness :
    ((initState 2 3).locked = true ↔ ∃ t, guardHolder ((initState 2 3).pc t) = true) ∧
    (∀ t u, guardHolder ((initState 2 3).pc t) = true →
      guardHolder ((initState 2 3).pc u) = true → t = u) :=
  c1_mutual_exclusion Reach.refl

/-- Claim C3: guard release — `MutexGuard::drop` acquires the spin lock,
sets `locked` to false, and if the wait list is non-empty issues exactly
one unpark, to the thread whose handle is stored in the head entry,
leaving the head entry linked (the release path performs no unlink). -/
theorem c3_guard_release {n : Nat} (s : MState n) (t : Fin n) :
    (s.pc t = PC.relAcq →
      (s.sl = true → tstep t s = s) ∧
      (s.sl = false → (tstep t s).sl = true ∧ (tstep t s).pc t = PC.relSet)) ∧
    (s.pc t = PC.relSet →
      (tstep t s).locked = false ∧ (tstep t s).pc t = PC.relNotify ∧
      (tstep t s).waitList = s.waitList ∧ (tstep t s).unparkLog = s.unparkLog) ∧
    (s.pc t = PC.relNotify →
      (tstep t s).waitList = s.waitList ∧ (tstep t s).pc t = PC.relDone ∧
      (s.waitList = [] → (tstep t s).unparkLog = s.unparkLog) ∧
      (∀ w rest, s.waitList = w :: rest →
        (tstep t s).unparkLog = s.unparkLog ++ [w])) ∧
    (s.pc t = PC.relDone → (tstep t s).sl = false ∧ (tstep t s).pc t = PC.idle) := by
  refine ⟨?_, ?_, ?_, ?_⟩
  · intro hpc
    constructor
    · intro hsl
      simp only [tstep, hpc, if_pos hsl]
    · intro hsl
      have hns : ¬ s.sl = true := by rw [hsl]; exact Bool.false_ne_true
      simp [tstep, hpc, if_neg hns]
  · intro hpc
    simp [tstep, hpc]
  · intro hpc
    cases hw : s.waitList with
    | nil => simp [tstep, hpc, hw]
    | cons w rest =>
        simp [tstep, hpc, hw]
  · intro hpc
    simp [tstep, hpc]

/-- A concrete contended state used as witness input: thread 0 is at the
notification step of `MutexGuard::drop`, thread 1 is parked with its
entry at the head of the wait list. -/
def c3State : MState 2 :=
  { sl := true, locked := false, waitList := [1], data := 5, unparkLog := [],
    pc := fun x => if x = 0 then PC.relNotify else PC.parked,
    budget := fun _ => 1 }

/-- Witness for C3 at a concrete release state with one waiter. -/
theorem c3_guard_release_witness :
    (c3State.pc 0 = PC.relAcq →
      (c3State.sl = true → tstep 0 c3State = c3State) ∧
      (c3State.sl = false → (tstep 0 c3State).sl = true ∧
        (tstep 0 c3State).pc 0 = PC.relSet)) ∧
    (c3State.pc 0 = PC.relSet →
      (tstep 0 c3State).locked = false ∧ (tstep 0 c3State).pc 0 = PC.relNotify ∧
      (tstep 0 c3State).waitList = c3State.waitList ∧
      (tstep 0 c3State).unparkLog = c3State.unparkLog) ∧
    (c3State.pc 0 = PC.relNotify →
      (tstep 0 c3State).waitList = c3State.waitList ∧
      (tstep 0 c3State).pc 0 = PC.relDone ∧
      (c3State.waitList = [] → (tstep 0 c3State).unparkLog = c3State.unparkLog) ∧
      (∀ w rest, c3State.waitList = w :: rest →
        (tstep 0 c3State).unparkLog = c3State.unparkLog ++ [w])) ∧
    (c3State.pc 0 = PC.relDone →
      (tstep 0 c3State).sl = false ∧ (tstep 0 c3State).pc 0 = PC.idle) :=
  c3_guard_release c3State 0

/-- Claim C7: spin-lock semantics — at each of the three acquire sites,
the compare-exchange succeeds (flag goes false to true, thread advances)
only when the flag was false, and otherwise the state is unchanged (the
thread keeps spinning; there is no other failure outcome); in every
reachable state the flag is true whenever some `SpinLockGuard` exists;
each release site stores false; the source orderings are
acquire-on-success, relaxed-on-failure, release-on-store. -/
theorem c7_spinlock {n m : Nat} {s : MState n}
    (hreach : Reach (initState n m) s) (t : Fin n) :
    (slHolder (s.pc t) = true → s.sl = true) ∧
    ((s.pc t = PC.lockAcq ∨ s.pc t = PC.waitReacq ∨ s.pc t = PC.relAcq) →
      (s.sl = true → tstep t s = s) ∧
      (s.sl = false → (tstep t s).sl = true ∧ slHolder ((tstep t s).pc t) = true)) ∧
    ((s.pc t = PC.waitCheck ∧ s.locked = true) → (tstep t s).sl = false) ∧
    (s.pc t = PC.retGuard → (tstep t s).sl = false) ∧
    (s.pc t = PC.relDone → (tstep t s).sl = false) ∧
    (casSuccessOrdering = MemOrdering.acquire ∧
      casFailureOrdering = MemOrdering.relaxed ∧
      unlockStoreOrdering = MemOrdering.release) := by
  have h := minv_reach hreach
  refine ⟨h.slOwner t, ?_, ?_, ?_, ?_, rfl, rfl, rfl⟩
  · intro hpc
    constructor
    · intro hsl
      rcases hpc with hpc | hpc | hpc <;> simp only [tstep, hpc, if_pos hsl]
    · intro hsl
      have hns : ¬ s.sl = true := by rw [hsl]; exact Bool.false_ne_true
      rcases hpc with hpc | hpc | hpc <;> simp [tstep, hpc, if_neg hns, slHolder]
  · rintro ⟨hpc, hl⟩
    simp [tstep, hpc, hl]
  · intro hpc
    simp [tstep, hpc]
  · intro hpc
    simp [tstep, hpc]

/-- Witness for C7 at the initial two-thread demonstration state. -/
theorem c7_spinlock_witness :
    (slHolder ((initState 2 3).pc 0) = true → (initState 2 3).sl = true) ∧
    (((initState 2 3).pc 0 = PC.lockAcq ∨ (initState 2 3).pc 0 = PC.waitReacq ∨
        (initState 2 3).pc 0 = PC.relAcq) →
      ((initState 2 3).sl = true → tstep 0 (initState 2 3) = initState 2 3) ∧
      ((initState 2 3).sl = false → (tstep 0 (initState 2 3)).sl = true ∧
        slHolder ((tstep 0 (initState 2 3)).pc 0) = true)) ∧
    (((initState 2 3).pc 0 = PC.waitCheck ∧ (initState 2 3).locked = true) →
      (tstep 0 (initState 2 3)).sl = false) ∧
    ((initState 2 3).pc 0 = PC.retGuard → (tstep 0 (initState 2 3)).sl = false) ∧
    ((initState 2 3).pc 0 = PC.relDone → (tstep 0 (initState 2 3)).sl = false) ∧
    (casSuccessOrdering = MemOrdering.acquire ∧
      casFailureOrdering = MemOrdering.relaxed ∧
      unlockStoreOrdering = MemOrdering.release) :=
  c7_spinlock Reach.refl 0

/-- Claim C8: infallible wait-entry construction — the error type of the
wait-entry construction result is uninhabited (the `match e {}` branch
is statically unreachable), and the construction always returns `ok`, so
`lock()` never propagates an error from this path. -/
theorem c8_infallible_insert :
    (∀ e : InsertNewError, False) ∧
    (∀ (cur node : Nat) (dl : DList) (sent : Nat),
      ∃ w, WaitEntry.insertNew cur node dl sent = Except.ok w) := by
  constructor
  · exact fun e => nomatch e
  · intro cur node dl sent
    exact ⟨({ node := node, thread := cur }, dl.insertPrev sent node), rfl⟩

/-- Claim C9: idempotent unlink — `unlink` self-links the removed node
after re-linking its two neighbors to each other, so unlinking the same
node a second time is a no-op: `unlink` composed with itself equals a
single `unlink`. -/
theorem c9_unlink_idempotent (s : DList) (node : Nat) :
    ((s.unlink node).next node = node ∧ (s.unlink node).prev node = node) ∧
    (s.prev node ≠ node → (s.unlink node).next (s.prev node) = s.next node) ∧
    (s.next node ≠ node → (s.unlink node).prev (s.next node) = s.prev node) ∧
    (s.unlink node).unlink node = s.unlink node := by
  refine ⟨⟨by simp [DList.unlink], by simp [DList.unlink]⟩, ?_, ?_, ?_⟩
  · intro hp
    simp [DList.unlink, hp]
  · intro hq
    simp [DList.unlink, hq]
  · ext x
    · by_cases hx : x = node <;> simp [DList.unlink, hx]
    · by_cases hx : x = node <;> simp [DList.unlink, hx]

/-- Witness for C9 on the one-element list `sentinel 0, node 1`. -/
theorem c9_unlink_idempotent_witness :
    ((((DList.newEmptySentinel.insertPrev 0 1).unlink 1).next 1 = 1 ∧
      ((DList.newEmptySentinel.insertPrev 0 1).unlink 1).prev 1 = 1) ∧
    ((DList.newEmptySentinel.insertPrev 0 1).prev 1 ≠ 1 →
      ((DList.newEmptySentinel.insertPrev 0 1).unlink 1).next
        ((DList.newEmptySentinel.insertPrev 0 1).prev 1) =
        (DList.newEmptySentinel.insertPrev 0 1).next 1) ∧
    ((DList.newEmptySentinel.insertPrev 0 1).next 1 ≠ 1 →
      ((DList.newEmptySentinel.insertPrev 0 1).unlink 1).prev
        ((DList.newEmptySentinel.insertPrev 0 1).next 1) =
        (DList.newEmptySentinel.insertPrev 0 1).prev 1) ∧
    ((DList.newEmptySentinel.insertPrev 0 1).unlink 1).unlink 1 =
      (DList.newEmptySentinel.insertPrev 0 1).unlink 1) :=
  c9_unlink_idempotent (DList.newEmptySentinel.insertPrev 0 1) 1

/-- Claim C2: contended-path wait loop — a thread leaves the wait loop
of `lock()` only by its own step from the loop's re-test point, having
observed `locked == false` while the spin lock is held; when the flag is
still true at the re-test it re-parks; and resuming from `park` (also
spuriously) only moves the thread to re-acquiring the spin lock — it
changes no shared state and grants no ownership. -/
theorem c2_wait_loop {n m : Nat} {s : MState n}
    (hreach : Reach (initState n m) s) (t u : Fin n) :
    (inWaitLoop (s.pc t) = true → inWaitLoop ((tstep u s).pc t) = false →
      u = t ∧ s.pc t = PC.waitCheck ∧ s.locked = false ∧ s.sl = true ∧
      (tstep u s).pc t = PC.unlinkEntry) ∧
    (s.pc t = PC.waitCheck → s.locked = true → (tstep t s).pc t = PC.parked) ∧
    (s.pc t = PC.parked →
      (tstep t s).pc t = PC.waitReacq ∧ (tstep t s).locked = s.locked ∧
      (tstep t s).sl = s.sl ∧ (tstep t s).waitList = s.waitList ∧
      guardHolder ((tstep t s).pc t) = false) := by
  have hinv := minv_reach hreach
  refine ⟨?_, ?_, ?_⟩
  · intro hloop hexit
    rcases eq_or_ne u t with rfl | hne
    · cases hpc : s.pc u with
      | waitCheck =>
          by_cases hl : s.locked = true
          · simp [tstep, hpc, hl] at hexit
            exact absurd hexit (by simp [inWaitLoop])
          · have hlf : s.locked = false := by simpa using hl
            refine ⟨rfl, rfl, hlf, hinv.slOwner u (by rw [hpc]; rfl), ?_⟩
            simp [tstep, hpc, hlf]
      | parked =>
          simp [tstep, hpc] at hexit
          exact absurd hexit (by simp [inWaitLoop])
      | waitReacq =>
          by_cases hsl : s.sl = true
          · simp only [tstep, hpc, if_pos hsl] at hexit
            exact absurd hexit (by decide)
          · simp [tstep, hpc, if_neg hsl] at hexit
            exact absurd hexit (by simp [inWaitLoop])
      | idle => rw [hpc] at hloop; exact absurd hloop (by decide)
      | lockAcq => rw [hpc] at hloop; exact absurd hloop (by decide)
      | lockTest => rw [hpc] at hloop; exact absurd hloop (by decide)
      | insertEntry => rw [hpc] at hloop; exact absurd hloop (by decide)
      | unlinkEntry => rw [hpc] at hloop; exact absurd hloop (by decide)
      | setFlag => rw [hpc] at hloop; exact absurd hloop (by decide)
      | retGuard => rw [hpc] at hloop; exact absurd hloop (by decide)
      | csRead => rw [hpc] at hloop; exact absurd hloop (by decide)
      | csWrite r => rw [hpc] at hloop; exact absurd hloop (by simp [inWaitLoop])
      | relAcq => rw [hpc] at hloop; exact absurd hloop (by decide)
      | relSet => rw [hpc] at hloop; exact absurd hloop (by decide)
      | relNotify => rw [hpc] at hloop; exact absurd hloop (by decide)
      | relDone => rw [hpc] at hloop; exact absurd hloop (by decide)
      | done => rw [hpc] at hloop; exact absurd hloop (by decide)
    · rw [tstep_pc_ne s (Ne.symm hne)] at hexit
      rw [hexit] at hloop
      exact absurd hloop (by decide)
  · intro hpc hl
    simp [tstep, hpc, hl]
  · intro hpc
    simp [tstep, hpc, guardHolder]

/-- A reachable contended state: thread 0 ran to its critical section,
thread 1 queued a wait entry and parked. -/
def c2State : MState 2 := runTrace (initState 2 1) [0, 0, 0, 0, 0, 1, 1, 1, 1, 1]

/-- Witness for C2 at a reachable state with thread 1 parked. -/
theorem c2_wait_loop_witness :
    (inWaitLoop (c2State.pc 1) = true → inWaitLoop ((tstep 1 c2State).pc 1) = false →
      (1 : Fin 2) = 1 ∧ c2State.pc 1 = PC.waitCheck ∧ c2State.locked = false ∧
      c2State.sl = true ∧ (tstep 1 c2State).pc 1 = PC.unlinkEntry) ∧
    (c2State.pc 1 = PC.waitCheck → c2State.locked = true →
      (tstep 1 c2State).pc 1 = PC.parked) ∧
    (c2State.pc 1 = PC.parked →
      (tstep 1 c2State).pc 1 = PC.waitReacq ∧
      (tstep 1 c2State).locked = c2State.locked ∧
      (tstep 1 c2State).sl = c2State.sl ∧
      (tstep 1 c2State).waitList = c2State.waitList ∧
      guardHolder ((tstep 1 c2State).pc 1) = false) :=
  c2_wait_loop (reach_runTrace (initState 2 1) [0, 0, 0, 0, 0, 1, 1, 1, 1, 1]) 1 1

/-- Claim C4: fast path — when `lock()` finds `locked == false` at the
test under the spin lock, the calling thread moves straight through
setting the flag and returning the guard: it links no wait entry, never
parks, sets `locked` before the spin lock is released, and while it
holds the spin lock no other thread's step can change the flag, the
wait list, or its own progress. -/
theorem c4_fast_path {n m : Nat} {s : MState n} (hreach : Reach (initState n m) s)
    (t : Fin n) (hpc : s.pc t = PC.lockTest) (hfree : s.locked = false) :
    t ∉ s.waitList ∧
    (tstep t s).pc t = PC.setFlag ∧ (tstep t s).waitList = s.waitList ∧
    (tstep t (tstep t s)).pc t = PC.retGuard ∧
    (tstep t (tstep t s)).locked = true ∧
    (tstep t (tstep t s)).waitList = s.waitList ∧
    (tstep t (tstep t (tstep t s))).pc t = PC.csRead ∧
    (tstep t (tstep t (tstep t s))).sl = false ∧
    (tstep t (tstep t (tstep t s))).waitList = s.waitList ∧
    (∀ u, u ≠ t →
      (tstep u s).locked = s.locked ∧ (tstep u s).waitList = s.waitList ∧
      (tstep u s).pc t = s.pc t) := by
  have hinv := minv_reach hreach
  have hnl : ¬ s.locked = true := by rw [hfree]; exact Bool.false_ne_true
  have h1 : tstep t s = { s with pc := Function.update s.pc t PC.setFlag } := by
    simp only [tstep, hpc, if_neg hnl]
  have h2 : tstep t (tstep t s) =
      { s with locked := true, pc := Function.update s.pc t PC.retGuard } := by
    rw [h1]
    simp only [tstep, Function.update_same, Function.update_idem]
  have h3 : tstep t (tstep t (tstep t s)) =
      { s with locked := true, sl := false,
               pc := Function.update s.pc t PC.csRead } := by
    rw [h2]
    simp only [tstep, Function.update_same, Function.update_idem]
  refine ⟨?_, ?_, ?_, ?_, ?_, ?_, ?_, ?_, ?_, ?_⟩
  · intro hm
    have hx := (hinv.waitMem t).mp hm
    rw [hpc] at hx
    exact absurd hx (by decide)
  · rw [h1]
    simp
  · rw [h1]
  · rw [h2]
    simp
  · rw [h2]
  · rw [h2]
  · rw [h3]
    simp
  · rw [h3]
  · rw [h3]
  · intro u hu
    have hf := tstep_frame hinv hu (by rw [hpc]; rfl)
    exact ⟨hf.1, hf.2.1, hf.2.2.2⟩

/-- A reachable state with thread 0 at the `locked` test of `lock()` on
an unlocked mutex. -/
def c4State : MState 2 := runTrace (initState 2 1) [0, 0]

/-- Witness for C4: thread 0 takes the fast path from `c4State`. -/
theorem c4_fast_path_witness :
    (0 : Fin 2) ∉ c4State.waitList ∧
    (tstep 0 c4State).pc 0 = PC.setFlag ∧
    (tstep 0 c4State).waitList = c4State.waitList ∧
    (tstep 0 (tstep 0 c4State)).pc 0 = PC.retGuard ∧
    (tstep 0 (tstep 0 c4State)).locked = true ∧
    (tstep 0 (tstep 0 c4State)).waitList = c4State.waitList ∧
    (tstep 0 (tstep 0 (tstep 0 c4State))).pc 0 = PC.csRead ∧
    (tstep 0 (tstep 0 (tstep 0 c4State))).sl = false ∧
    (tstep 0 (tstep 0 (tstep 0 c4State))).waitList = c4State.waitList ∧
    (∀ u, u ≠ (0 : Fin 2) →
      (tstep u c4State).locked = c4State.locked ∧
      (tstep u c4State).waitList = c4State.waitList ∧
      (tstep u c4State).pc 0 = c4State.pc 0) :=
  c4_fast_path (reach_runTrace (initState 2 1) [0, 0]) 0 (by decide) (by decide)

/-- Claim C5: value integrity — in any terminal reachable state of `n`
threads each performing `m` increments through the mutex, the counter is
exactly `n * m`; at the demonstration's parameters (20 threads, each
incrementing 1,000,000 times twice) that is 40,000,000, which is what
the final assertion checks. -/
theorem c5_value_integrity {n m : Nat} {s : MState n}
    (hreach : Reach (initState n m) s) (hterm : ∀ t, s.pc t = PC.done) :
    s.data = n * m ∧
    (n = threadCount → m = perThread → mainAssertion s.data) := by
  have h := minv_reach hreach
  have hsum : Finset.univ.sum s.budget = 0 :=
    Finset.sum_eq_zero (fun t _ => h.doneBudget t (hterm t))
  have htot := h.totalSum
  rw [hsum, Nat.add_zero] at htot
  refine ⟨htot, ?_⟩
  intro hn hm
  rw [mainAssertion, htot, hn, hm]
  norm_num [threadCount, perThread, workload]

/-- A terminal state of the one-thread, one-increment demonstration. -/
def c5State : MState 1 := runTrace (initState 1 1) (List.replicate 12 0)

/-- Witness for C5: one thread completing one increment ends with the
counter at `1 * 1`. -/
theorem c5_value_integrity_witness :
    c5State.data = 1 * 1 ∧
    ((1 : Nat) = threadCount → (1 : Nat) = perThread → mainAssertion c5State.data) :=
  c5_value_integrity (reach_runTrace (initState 1 1) (List.replicate 12 0)) (by decide)

/-- Claim C6: wait-entry construction — the entry created by the
contended path of `lock()` carries the handle of the thread that is
about to block (the appended element is `t` itself, the stepping
thread), and at the list level `insert_before_sentinel` splices the new
node immediately before the sentinel, i.e. at the tail of the traversal
order. -/
theorem c6_wait_entry_insert {n : Nat} (s : MState n) (t : Fin n)
    (dl : DList) (sent : Nat) (l : List Nat) (node : Nat)
    (hpc : s.pc t = PC.insertEntry)
    (hch : chain dl sent l sent) (hnd : (sent :: l).Nodup)
    (hnew : node ∉ sent :: l) :
    (tstep t s).waitList = s.waitList ++ [t] ∧
    chain (dl.insertPrev sent node) sent (l ++ [node]) sent := by
  constructor
  · simp [tstep, hpc]
  · exact insertPrev_chain dl sent l node hch hnd hnew

/-- A state with thread 0 about to link a wait entry while thread 1 is
already queued. -/
def c6State : MState 2 :=
  { sl := true, locked := true, waitList := [1], data := 0, unparkLog := [],
    pc := fun x => if x = 0 then PC.insertEntry else PC.waitCheck,
    budget := fun _ => 1 }

/-- Witness for C6: thread 0's entry is appended after thread 1's, and
node 2 is spliced right before sentinel 0 in the list `[1]`. -/
theorem c6_wait_entry_insert_witness :
    (tstep 0 c6State).waitList = c6State.waitList ++ [0] ∧
    chain ((DList.newEmptySentinel.insertPrev 0 1).insertPrev 0 2) 0 ([1] ++ [2]) 0 :=
  c6_wait_entry_insert c6State 0 (DList.newEmptySentinel.insertPrev 0 1) 0 [1] 2
    (by decide) ⟨rfl, rfl, rfl, rfl⟩ (by decide) (by decide)
